import Mathlib

/-!
Verification of the chord-table encoder of `twiddler-cfg` (`src/csv.rs`).

The encoder `Chord::get_hid_pairs` turns one `output` string into a list of
`(modifier, keycode)` pairs by a single left-to-right scan with a small state
machine (`Literal` / `InTag`, a `closing` flag, a recorded `tag_start`).

Modelling decisions, all taken from the Rust source:

* Strings are `List Char`.  Rust's `String::len` and slicing `&s[a..b]`
  operate on UTF-8 **bytes** while `chars().enumerate()` yields **character**
  indices; the code mixes the two (it stores a character index in `tag_start`
  and then byte-slices with it).  We therefore model byte lengths and byte
  slicing explicitly via `Char.utf8Size`; an out-of-bounds or
  non-character-boundary slice is a Rust panic, modelled as `none`.
* `hid::keys_hid().get_by_right` is an external collaborator that is not part
  of this repository's sources; following the spec it is abstracted as a
  partial map `keys : List Char → Option Nat` queried with the full string.
* `u8` values are `Nat`; the only bitwise operations are `|||`, `&&&` and the
  8-bit complement `255 ^^^ m`, and every value that arises is `< 256`.
-/

/-- UTF-8 byte length of a string (Rust `String::len`). -/
def utf8Len (s : List Char) : Nat :=
  (s.map Char.utf8Size).sum

/-- Drop exactly `n` UTF-8 bytes from the front of `s`; `none` when `n`
overruns the string or falls strictly inside a character (a Rust slice
panic). -/
def dropBytes : List Char → Nat → Option (List Char)
  | s, 0 => some s
  | [], _ + 1 => none
  | c :: s, n + 1 =>
    if c.utf8Size ≤ n + 1 then dropBytes s (n + 1 - c.utf8Size) else none

/-- Take exactly `n` UTF-8 bytes from the front of `s`; `none` when `n`
overruns the string or falls strictly inside a character (a Rust slice
panic). -/
def takeBytes : List Char → Nat → Option (List Char)
  | _, 0 => some []
  | [], _ + 1 => none
  | c :: s, n + 1 =>
    if c.utf8Size ≤ n + 1 then
      (takeBytes s (n + 1 - c.utf8Size)).map (c :: ·)
    else none

/-- Rust byte slice `&s[a..b]`: `none` exactly when Rust would panic. -/
def byteSlice (s : List Char) (a b : Nat) : Option (List Char) :=
  if a ≤ b then (dropBytes s a).bind (fun t => takeBytes t (b - a)) else none

/-- The fixed tag-name table of `get_hid_pairs` (the `match tag_contents`
expression): eight modifier names to single bits, anything else to `0`. -/
def modifierOf (tc : List Char) : Nat :=
  if tc = "L-Ctrl".data then 0x01
  else if tc = "L-Shift".data then 0x02
  else if tc = "L-Alt".data then 0x04
  else if tc = "L-Gui".data then 0x08
  else if tc = "R-Ctrl".data then 0x10
  else if tc = "R-Shift".data then 0x20
  else if tc = "R-Alt".data then 0x40
  else if tc = "R-Gui".data then 0x80
  else 0

/-- Scan-local state of `get_hid_pairs`: the accumulated `hid_pairs` vector,
`current_modifiers`, `reading_tag`, `tag_start` and `closing`. -/
structure ScanState where
  pairs : List (Nat × Nat)
  currentModifiers : Nat
  readingTag : Bool
  tagStart : Nat
  closing : Bool
deriving Repr, DecidableEq

/-- Initial scan state (`hid_pairs` empty, all scalars zero / false). -/
def initState : ScanState :=
  { pairs := [], currentModifiers := 0, readingTag := false,
    tagStart := 0, closing := false }

/-- One iteration of the `for (i, c)` loop of `get_hid_pairs`, i.e. the
`match (c, reading_tag)` block.  `output` is the whole string being encoded
(used by the byte slice at `>` and by the keycode lookup), `i` the character
index.  `none` models the Rust panic of an invalid byte slice. -/
def step (keys : List Char → Option Nat) (output : List Char)
    (s : ScanState) (i : Nat) (c : Char) : Option ScanState :=
  if c = '<' then
    if s.readingTag then
      some { s with tagStart := i,
                    pairs := s.pairs ++ [(s.currentModifiers, 0x64)] }
    else
      some { s with readingTag := true, tagStart := i }
  else if c = '>' then
    if s.readingTag then
      match byteSlice output (s.tagStart + 1) i with
      | none => none
      | some tc =>
        let modifier := modifierOf tc
        some { s with readingTag := false,
                      currentModifiers :=
                        if s.closing then
                          s.currentModifiers &&& (255 ^^^ modifier)
                        else
                          s.currentModifiers ||| modifier }
    else
      some { s with pairs := s.pairs ++ [(s.currentModifiers, 0x64)] }
  else if c = '/' then
    if s.readingTag then
      some { s with closing := false }
    else
      some { s with pairs := s.pairs ++ [(s.currentModifiers, 0x38)] }
  else
    if s.readingTag then
      some s
    else
      match keys output with
      | some k => some { s with pairs := s.pairs ++ [(s.currentModifiers, k)] }
      | none => some s

/-- Run the scan loop over the remaining characters `cs`, the next character
having index `i`. -/
def scanAux (keys : List Char → Option Nat) (output : List Char) :
    ScanState → Nat → List Char → Option ScanState
  | s, _, [] => some s
  | s, i, c :: cs =>
    match step keys output s i c with
    | some s' => scanAux keys output s' (i + 1) cs
    | none => none

/-- The whole encoder `Chord::get_hid_pairs`: single-byte fast path keyed on
the UTF-8 **byte** length, otherwise the scan; `none` models a panic. -/
def get_hid_pairs (keys : List Char → Option Nat) (output : List Char) :
    Option (List (Nat × Nat)) :=
  if utf8Len output = 1 then
    some (match keys output with
          | some k => [(0, k)]
          | none => [(0, 0)])
  else
    (scanAux keys output initState 0 output).map ScanState.pairs

/-- Scan invariant used for the modifier-monotonicity claim: the `closing`
flag is down, consecutive emitted modifier masks grow under bitwise
inclusion, and every emitted mask is included in `current_modifiers`. -/
def ScanInv (s : ScanState) : Prop :=
  s.closing = false ∧
  List.Chain' (fun p q : Nat × Nat => p.1 ||| q.1 = q.1) s.pairs ∧
  ∀ p ∈ s.pairs, p.1 ||| s.currentModifiers = s.currentModifiers

/-- All characters of `s` are single-byte in UTF-8 (ASCII). -/
def AsciiStr (s : List Char) : Prop :=
  ∀ c ∈ s, c.utf8Size = 1

instance : DecidablePred AsciiStr :=
  fun s => decidable_of_iff (∀ c ∈ s, c.utf8Size = 1) Iff.rfl

/-- One row of the chord table (`struct Chord`): optional thumb and finger
notations and the required keyboard-output string. -/
structure Chord where
  thumbs : Option (List Char)
  fingers : Option (List Char)
  output : List Char
deriving Repr, DecidableEq

/-- Modelled from the spec: the tabular record codec is the external `csv`
crate (with serde), not part of this repository's sources; the spec treats
it as a given record-list codec with three columns and standard quoting.  A
field is quoted when it contains a delimiter, quote or record terminator. -/
def csvNeedsQuote (f : List Char) : Bool :=
  f.any (fun c => c = ',' || c = '"' || c = '\n' || c = '\r')

/-- Quote-escaping inside a quoted field: a `"` becomes `""`. -/
def csvEscape : List Char → List Char
  | [] => []
  | c :: cs => if c = '"' then '"' :: '"' :: csvEscape cs else c :: csvEscape cs

/-- One encoded field: quoted and escaped when needed, raw otherwise. -/
def csvField (f : List Char) : List Char :=
  if csvNeedsQuote f then '"' :: (csvEscape f ++ ['"']) else f

/-- An absent optional field is written as the empty field. -/
def optField : Option (List Char) → List Char
  | none => []
  | some s => s

/-- One encoded row: three comma-separated fields and a newline. -/
def csvRecordLine (r : Chord) : List Char :=
  csvField (optField r.thumbs) ++
    ',' :: (csvField (optField r.fingers) ++
      ',' :: (csvField r.output ++ ['\n']))

/-- The header row the writer emits (the struct's field names). -/
def csvHeader : List Char := "thumbs,fingers,output\n".data

/-- Modelled from the spec: `export` — serialize every record behind a
header row; an empty record list produces no output at all (the writer
never gets to emit headers). -/
def csvExport : List Chord → List Char
  | [] => []
  | r :: rs => csvHeader ++ (((r :: rs).map csvRecordLine).flatten)

/-- Scan a quoted field after its opening `"`: a doubled `""` is a literal
quote, a single `"` closes the field, anything else is literal; `none` on an
unterminated quote. -/
def parseQuoted : List Char → List Char → Option (List Char × List Char)
  | _, [] => none
  | acc, [c] => if c = '"' then some (acc, []) else none
  | acc, c :: c2 :: cs =>
    if c = '"' then
      if c2 = '"' then parseQuoted (acc ++ ['"']) cs
      else some (acc, c2 :: cs)
    else parseQuoted (acc ++ [c]) (c2 :: cs)

/-- Scan an unquoted field: everything up to the next `,` or newline. -/
def parseUnquoted : List Char → List Char × List Char
  | [] => ([], [])
  | c :: cs =>
    if c = ',' ∨ c = '\n' then ([], c :: cs)
    else
      let p := parseUnquoted cs
      (c :: p.1, p.2)

/-- One field: quoted when it starts with `"`, unquoted otherwise. -/
def parseField : List Char → Option (List Char × List Char)
  | [] => some ([], [])
  | c :: cs =>
    if c = '"' then parseQuoted [] cs else some (parseUnquoted (c :: cs))

/-- One row: three comma-separated fields closed by a newline (or the end of
input). -/
def parseRow (cs : List Char) :
    Option ((List Char × List Char × List Char) × List Char) :=
  match parseField cs with
  | none => none
  | some (f1, r1) =>
    match r1 with
    | ',' :: r2 =>
      match parseField r2 with
      | none => none
      | some (f2, r3) =>
        match r3 with
        | ',' :: r4 =>
          match parseField r4 with
          | none => none
          | some (f3, r5) =>
            match r5 with
            | [] => some ((f1, f2, f3), [])
            | '\n' :: r6 => some ((f1, f2, f3), r6)
            | _ => none
        | _ => none
    | _ => none

/-- Build a record from the three decoded fields: an empty optional field
deserializes as absent (`None`), the output field is taken verbatim. -/
def mkChord (f1 f2 f3 : List Char) : Chord :=
  { thumbs := if f1 = [] then none else some f1,
    fingers := if f2 = [] then none else some f2,
    output := f3 }

/-- Decode the data rows; the fuel argument only bounds the number of rows. -/
def decodeRows : Nat → List Char → Option (List Chord)
  | _, [] => some []
  | 0, _ :: _ => none
  | fuel + 1, c :: cs =>
    match parseRow (c :: cs) with
    | none => none
    | some (fs, rest) =>
      match decodeRows fuel rest with
      | none => none
      | some rs => some (mkChord fs.1 fs.2.1 fs.2.2 :: rs)

/-- Modelled from the spec: `parse` — read the header row (its values are
ignored) and then one record per row. -/
def csvParse : List Char → Option (List Chord)
  | [] => some []
  | c :: cs =>
    match parseRow (c :: cs) with
    | none => none
    | some (_, rest) => decodeRows (rest.length + 1) rest

/-- The field-level identification the codec performs: an optional field
written as the empty field comes back as absent. -/
def csvNormalize (r : Chord) : Chord :=
  mkChord (optField r.thumbs) (optField r.fingers) r.output

/-- Appending the scan over `l₁ ++ l₂` is the scan over `l₁` continued over
`l₂` at the shifted index. -/
theorem scanAux_append (keys : List Char → Option Nat) (output : List Char)
    (l₁ l₂ : List Char) (s : ScanState) (i : Nat) :
    scanAux keys output s i (l₁ ++ l₂) =
      (scanAux keys output s i l₁).bind
        (fun s' => scanAux keys output s' (i + l₁.length) l₂) := by
  induction l₁ generalizing s i with
  | nil => simp [scanAux]
  | cons c cs ih =>
    simp only [List.cons_append, scanAux]
    cases h : step keys output s i c with
    | none => simp
    | some s' =>
      simp [ih, List.append_eq, Nat.add_comm, Nat.add_assoc, Nat.add_left_comm]

theorem scanInv_push {s : ScanState} (k : Nat) (h : ScanInv s) :
    List.Chain' (fun p q : Nat × Nat => p.1 ||| q.1 = q.1)
      (s.pairs ++ [(s.currentModifiers, k)]) ∧
    ∀ p ∈ s.pairs ++ [(s.currentModifiers, k)],
      p.1 ||| s.currentModifiers = s.currentModifiers := by
  obtain ⟨-, hchain, hincl⟩ := h
  constructor
  · rw [List.chain'_append]
    refine ⟨hchain, List.chain'_singleton _, ?_⟩
    intro x hx y hy
    simp only [List.head?_cons, Option.mem_def, Option.some.injEq] at hy
    subst hy
    obtain ⟨hne, hx'⟩ := List.mem_getLast?_eq_getLast hx
    exact hx' ▸ hincl _ (List.getLast_mem hne)
  · intro p hp
    rcases List.mem_append.mp hp with hp | hp
    · exact hincl p hp
    · simp only [List.mem_singleton] at hp
      subst hp
      simp

theorem step_preserves_scanInv (keys : List Char → Option Nat)
    (output : List Char) {s s' : ScanState} (i : Nat) (c : Char)
    (h : ScanInv s) (hstep : step keys output s i c = some s') :
    ScanInv s' := by
  obtain ⟨hcl, hchain, hincl⟩ := h
  unfold step at hstep
  split at hstep
  · split at hstep
    · cases hstep
      exact ⟨hcl, (scanInv_push 0x64 ⟨hcl, hchain, hincl⟩).1,
        (scanInv_push 0x64 ⟨hcl, hchain, hincl⟩).2⟩
    · cases hstep
      exact ⟨hcl, hchain, hincl⟩
  · split at hstep
    · split at hstep
      · split at hstep
        · exact absurd hstep (by simp)
        · cases hstep
          refine ⟨hcl, hchain, ?_⟩
          intro p hp
          simp only [hcl, Bool.false_eq_true, if_false]
          rw [← Nat.lor_assoc, hincl p hp]
      · cases hstep
        exact ⟨hcl, (scanInv_push 0x64 ⟨hcl, hchain, hincl⟩).1,
          (scanInv_push 0x64 ⟨hcl, hchain, hincl⟩).2⟩
    · split at hstep
      · split at hstep
        · cases hstep
          exact ⟨rfl, hchain, hincl⟩
        · cases hstep
          exact ⟨hcl, (scanInv_push 0x38 ⟨hcl, hchain, hincl⟩).1,
            (scanInv_push 0x38 ⟨hcl, hchain, hincl⟩).2⟩
      · split at hstep
        · cases hstep
          exact ⟨hcl, hchain, hincl⟩
        · split at hstep
          · rename_i k hk
            cases hstep
            exact ⟨hcl, (scanInv_push k ⟨hcl, hchain, hincl⟩).1,
              (scanInv_push k ⟨hcl, hchain, hincl⟩).2⟩
          · cases hstep
            exact ⟨hcl, hchain, hincl⟩

theorem scanAux_preserves_scanInv (keys : List Char → Option Nat)
    (output : List Char) :
    ∀ (cs : List Char) (s st : ScanState) (i : Nat), ScanInv s →
      scanAux keys output s i cs = some st → ScanInv st := by
  intro cs
  induction cs with
  | nil =>
    intro s st i h hscan
    cases hscan
    exact h
  | cons c cs ih =>
    intro s st i h hscan
    unfold scanAux at hscan
    cases hstep : step keys output s i c with
    | none => rw [hstep] at hscan; cases hscan
    | some s' =>
      rw [hstep] at hscan
      exact ih s' st (i + 1)
        (step_preserves_scanInv keys output i c h hstep) hscan

/-- C1: the spec's release-tag semantics.  In the source the `('/', true)`
arm executes `closing = false` — `closing` is initialised `false` and this is
its only assignment, so the `current_modifiers &= !modifier` branch is dead
and a `</L-Shift>`-style tag never clears anything.  Evaluating the scan on
`"<L-Shift></L-Shift>"` (for any keycode table): the final
`current_modifiers` is 0x02, not 0, and `closing` is still `false`. -/
theorem c1_release_tag_bug (keys : List Char → Option Nat) :
    scanAux keys "<L-Shift></L-Shift>".data initState 0
      "<L-Shift></L-Shift>".data =
    some { pairs := [], currentModifiers := 2, readingTag := false,
           tagStart := 9, closing := false } :=
  rfl

/-- C10: on the empty `output` the fast path (byte length 1) is not taken and
the scan emits nothing, so `get_hid_pairs` returns the empty sequence. -/
theorem c10_empty_output (keys : List Char → Option Nat) :
    get_hid_pairs keys [] = some [] :=
  rfl

/-- C6: a `<` read in the InTag state emits `(current_modifiers, 0x64)` and
restarts `tag_start` at the current index (staying in InTag), and a `>` read
in the Literal state emits the same `(current_modifiers, 0x64)` pair and
stays in Literal. -/
theorem c6_separator_emissions (keys : List Char → Option Nat)
    (output : List Char) (s : ScanState) (i : Nat) :
    (s.readingTag = true →
      step keys output s i '<' =
        some { s with tagStart := i,
                      pairs := s.pairs ++ [(s.currentModifiers, 0x64)] }) ∧
    (s.readingTag = false →
      step keys output s i '>' =
        some { s with pairs := s.pairs ++ [(s.currentModifiers, 0x64)] }) := by
  constructor
  · intro h
    simp [step, h]
  · intro h
    simp [step, h]

theorem c6_separator_emissions_witness :
    step (fun _ => none) [] ⟨[], 3, true, 0, false⟩ 5 '<' =
      some ⟨[(3, 0x64)], 3, true, 5, false⟩ ∧
    step (fun _ => none) [] ⟨[], 3, false, 0, false⟩ 5 '>' =
      some ⟨[(3, 0x64)], 3, false, 0, false⟩ :=
  ⟨(c6_separator_emissions (fun _ => none) [] ⟨[], 3, true, 0, false⟩ 5).1 rfl,
   (c6_separator_emissions (fun _ => none) [] ⟨[], 3, false, 0, false⟩ 5).2 rfl⟩

theorem step_literal_lookup (keys : List Char → Option Nat)
    (output : List Char) (s : ScanState) (i : Nat) (c : Char)
    (hLit : s.readingTag = false)
    (h1 : c ≠ '<') (h2 : c ≠ '>') (h3 : c ≠ '/') :
    step keys output s i c =
      some { s with pairs := s.pairs ++
        (match keys output with
         | some k => [(s.currentModifiers, k)]
         | none => []) } := by
  obtain ⟨ps, cm, rt, ts, cl⟩ := s
  simp only at hLit
  subst hLit
  unfold step
  rw [if_neg h1, if_neg h2, if_neg h3]
  cases hk : keys output with
  | some k => simp
  | none => simp

/-- The scan of a one-character list is one step. -/
theorem scanAux_singleton (keys : List Char → Option Nat)
    (output : List Char) (s : ScanState) (i : Nat) (c : Char) :
    scanAux keys output s i [c] = step keys output s i c := by
  unfold scanAux
  cases h : step keys output s i c with
  | none => rfl
  | some s' => rfl

/-- C4: a character other than `<`, `>`, `/` read in the Literal state
triggers a lookup keyed by the **entire** output string: if the full string
is mapped, `(current_modifiers, code)` is emitted; otherwise nothing is
emitted for that character. -/
theorem c4_literal_lookup_full_string (keys : List Char → Option Nat)
    (output : List Char) (s : ScanState) (i : Nat) (c : Char)
    (hLit : s.readingTag = false)
    (h1 : c ≠ '<') (h2 : c ≠ '>') (h3 : c ≠ '/') :
    step keys output s i c =
      some { s with pairs := s.pairs ++
        (match keys output with
         | some k => [(s.currentModifiers, k)]
         | none => []) } :=
  step_literal_lookup keys output s i c hLit h1 h2 h3

theorem c4_literal_lookup_full_string_witness :
    step (fun _ => some 4) "AB".data initState 0 'A' =
      some { initState with pairs := [(0, 4)] } := by
  have h := c4_literal_lookup_full_string (fun _ => some 4) "AB".data
    initState 0 'A' rfl (by decide) (by decide) (by decide)
  simpa using h

/-- C9: the `closing` flag is never raised during a scan, so no modifier bit
is ever cleared: the final state of any scan from the initial state has
`closing = false` and its emitted modifier bytes, in emission order, are
monotonically non-decreasing under bitwise inclusion. -/
theorem c9_modifiers_monotone (keys : List Char → Option Nat)
    (output : List Char) (st : ScanState)
    (hscan : scanAux keys output initState 0 output = some st) :
    st.closing = false ∧
    List.Chain' (fun p q : Nat × Nat => p.1 ||| q.1 = q.1) st.pairs := by
  have h := scanAux_preserves_scanInv keys output output initState st 0
    ⟨rfl, List.chain'_nil, by simp [initState]⟩ hscan
  exact ⟨h.1, h.2.1⟩

theorem c9_modifiers_monotone_witness :
    ScanState.closing
        { pairs := [(0, 0x64), (0, 0x64)], currentModifiers := 0,
          readingTag := false, tagStart := 0, closing := false } = false ∧
    List.Chain' (fun p q : Nat × Nat => p.1 ||| q.1 = q.1)
      [(0, 0x64), (0, 0x64)] := by
  have h := c9_modifiers_monotone (fun _ => none) ">>".data
    { pairs := [(0, 0x64), (0, 0x64)], currentModifiers := 0,
      readingTag := false, tagStart := 0, closing := false } (by decide)
  exact h

theorem dropBytes_ascii :
    ∀ (l : List Char), AsciiStr l → ∀ n ≤ l.length,
      dropBytes l n = some (l.drop n) := by
  intro l
  induction l with
  | nil =>
    intro _ n hn
    have hz : n = 0 := by simpa using hn
    subst hz
    rfl
  | cons c cs ih =>
    intro h n hn
    cases n with
    | zero => rfl
    | succ n =>
      have hc : c.utf8Size = 1 := h c (by simp)
      simp only [dropBytes, hc]
      rw [if_pos (by omega)]
      simpa using ih (fun d hd => h d (by simp [hd])) n (by simpa using hn)

theorem takeBytes_ascii :
    ∀ (l : List Char), AsciiStr l → ∀ n ≤ l.length,
      takeBytes l n = some (l.take n) := by
  intro l
  induction l with
  | nil =>
    intro _ n hn
    have hz : n = 0 := by simpa using hn
    subst hz
    rfl
  | cons c cs ih =>
    intro h n hn
    cases n with
    | zero => rfl
    | succ n =>
      have hc : c.utf8Size = 1 := h c (by simp)
      simp only [takeBytes, hc]
      rw [if_pos (by omega), Nat.add_sub_cancel,
        ih (fun d hd => h d (by simp [hd])) n (by simpa using hn)]
      simp

theorem byteSlice_ascii (l : List Char) (h : AsciiStr l) (a b : Nat)
    (hab : a ≤ b) (hb : b ≤ l.length) :
    byteSlice l a b = some ((l.drop a).take (b - a)) := by
  unfold byteSlice
  rw [if_pos hab, dropBytes_ascii l h a (le_trans hab hb)]
  simp only [Option.some_bind]
  exact takeBytes_ascii (l.drop a)
    (fun d hd => h d (List.mem_of_mem_drop hd)) (b - a)
    (by rw [List.length_drop]; omega)

theorem step_total_ascii (keys : List Char → Option Nat) (output : List Char)
    (h : AsciiStr output) (s : ScanState) (i : Nat) (c : Char)
    (hi : i < output.length) (hts : s.readingTag = true → s.tagStart < i) :
    ∃ s', step keys output s i c = some s' ∧
      (s'.readingTag = true → s'.tagStart < i + 1) := by
  unfold step
  by_cases h1 : c = '<'
  · rw [if_pos h1]
    cases hrt : s.readingTag with
    | false =>
      exact ⟨_, rfl, fun _ => by show i < i + 1; omega⟩
    | true =>
      exact ⟨_, rfl, fun _ => by show i < i + 1; omega⟩
  · rw [if_neg h1]
    by_cases h2 : c = '>'
    · rw [if_pos h2]
      cases hrt : s.readingTag with
      | false =>
        exact ⟨_, rfl, fun hc => by simp [hrt] at hc⟩
      | true =>
        have hlt := hts hrt
        rw [byteSlice_ascii output h (s.tagStart + 1) i (by omega) (by omega)]
        exact ⟨_, rfl, fun hc =>
          absurd (show false = true from hc) (by decide)⟩
    · rw [if_neg h2]
      by_cases h3 : c = '/'
      · rw [if_pos h3]
        cases hrt : s.readingTag with
        | false =>
          exact ⟨_, rfl, fun hc => by simp [hrt] at hc⟩
        | true =>
          exact ⟨_, rfl, fun _ =>
            by show s.tagStart < i + 1; have := hts hrt; omega⟩
      · rw [if_neg h3]
        cases hrt : s.readingTag with
        | false =>
          cases hk : keys output with
          | none =>
            exact ⟨_, rfl, fun hc => by simp [hrt] at hc⟩
          | some k =>
            exact ⟨_, rfl, fun hc => by simp [hrt] at hc⟩
        | true =>
          exact ⟨_, rfl, fun _ =>
            by show s.tagStart < i + 1; have := hts hrt; omega⟩

theorem scanAux_total_ascii (keys : List Char → Option Nat)
    (output : List Char) (h : AsciiStr output) :
    ∀ (cs : List Char) (s : ScanState) (i : Nat),
      i + cs.length ≤ output.length →
      (s.readingTag = true → s.tagStart < i) →
      ∃ st, scanAux keys output s i cs = some st := by
  intro cs
  induction cs with
  | nil => exact fun s i _ _ => ⟨s, rfl⟩
  | cons c cs ih =>
    intro s i hlen hts
    obtain ⟨s', hstep, hts'⟩ := step_total_ascii keys output h s i c
      (by simp at hlen; omega) hts
    obtain ⟨st, hst⟩ := ih s' (i + 1) (by simp at hlen ⊢; omega) hts'
    exact ⟨st, by unfold scanAux; rw [hstep]; exact hst⟩

/-- C2 (amended): on every output string made of single-byte (ASCII)
characters, `get_hid_pairs` returns normally, whatever the keycode table and
however `<`, `>`, `/` are placed.  (The unrestricted claim is refuted by
`c2_non_ascii_panic`: the tag slice mixes character indices into byte
slicing, and a multi-byte character before a tag's `>` makes the slice miss
a character boundary, a Rust panic.) -/
theorem c2_ascii_total (keys : List Char → Option Nat) (output : List Char)
    (h : AsciiStr output) :
    ∃ ps, get_hid_pairs keys output = some ps := by
  unfold get_hid_pairs
  by_cases hl : utf8Len output = 1
  · rw [if_pos hl]
    exact ⟨_, rfl⟩
  · rw [if_neg hl]
    obtain ⟨st, hst⟩ := scanAux_total_ascii keys output h output initState 0
      (by omega) (fun hc => by simp [initState] at hc)
    exact ⟨st.pairs, by rw [hst]; rfl⟩

theorem c2_ascii_total_witness :
    AsciiStr "<L-Ctrl>X/<>".data ∧
    ∃ ps, get_hid_pairs (fun _ => none) "<L-Ctrl>X/<>".data = some ps :=
  ⟨by decide, c2_ascii_total (fun _ => none) "<L-Ctrl>X/<>".data (by decide)⟩

/-- C2 is false as stated: on the three-character string `"<é>"` the Rust
code panics (byte slice `&output[1..2]` ends inside the two-byte `é`), which
the model reports as `none`. -/
theorem c2_non_ascii_panic :
    get_hid_pairs (fun _ => none) ['<', 'é', '>'] = none := by
  decide

/-- C3 (amended): the fast path is keyed on the UTF-8 **byte** length of the
output, not its character count: whenever `output` is a single byte, the
result is exactly the one-element sequence from the full-string lookup, or
`[(0, 0)]` when absent, and the scan is never entered. -/
theorem c3_single_byte_fast_path (keys : List Char → Option Nat)
    (output : List Char) (h : utf8Len output = 1) :
    get_hid_pairs keys output =
      some (match keys output with
            | some k => [(0, k)]
            | none => [(0, 0)]) := by
  unfold get_hid_pairs
  rw [if_pos h]

theorem c3_single_byte_fast_path_witness :
    utf8Len ['a'] = 1 ∧
    get_hid_pairs (fun _ => some 4) ['a'] = some [(0, 4)] :=
  ⟨by decide, by
    have h := c3_single_byte_fast_path (fun _ => some 4) ['a'] (by decide)
    simpa using h⟩

/-- C3 is false as stated: `"é"` is a one-character output string, but its
byte length is 2, so the fast path is skipped, the scan **is** entered, and
with `é` unmapped the result is `[]`, not `[(0, 0)]`. -/
theorem c3_multibyte_not_fast_path :
    (['é'] : List Char).length = 1 ∧
    get_hid_pairs (fun _ => none) ['é'] = some [] ∧
    some ([] : List (Nat × Nat)) ≠ some [((0 : Nat), (0 : Nat))] := by
  refine ⟨rfl, by decide, by decide⟩

theorem utf8Len_append (a b : List Char) :
    utf8Len (a ++ b) = utf8Len a + utf8Len b := by
  simp [utf8Len]

/-- C5: closing a tag resolves the name sliced between `tag_start + 1` and
the current index through the fixed eight-name table (distinct single bits,
`L-Ctrl ↦ 0x01`, ..., `R-Gui ↦ 0x80`, anything else `↦ 0`); an unrecognized
name as in `"<Bogus>A"` leaves `current_modifiers` at 0 and the remaining
literal characters are still processed normally, while a recognized
non-closing tag as in `"<L-Ctrl>x"` has modifier 0x01 ORed in before the
remainder is resolved. -/
theorem c5_tag_resolution :
    (modifierOf "L-Ctrl".data = 0x01 ∧ modifierOf "L-Shift".data = 0x02 ∧
     modifierOf "L-Alt".data = 0x04 ∧ modifierOf "L-Gui".data = 0x08 ∧
     modifierOf "R-Ctrl".data = 0x10 ∧ modifierOf "R-Shift".data = 0x20 ∧
     modifierOf "R-Alt".data = 0x40 ∧ modifierOf "R-Gui".data = 0x80 ∧
     modifierOf "Bogus".data = 0) ∧
    (∀ keys : List Char → Option Nat,
      get_hid_pairs keys "<Bogus>A".data =
        some (match keys "<Bogus>A".data with
              | some k => [(0, k)]
              | none => [])) ∧
    (∀ (keys : List Char → Option Nat) (x : Char),
      x ≠ '<' → x ≠ '>' → x ≠ '/' →
      scanAux keys ("<L-Ctrl>".data ++ [x]) initState 0 "<L-Ctrl>".data =
        some { pairs := [], currentModifiers := 0x01, readingTag := false,
               tagStart := 0, closing := false } ∧
      get_hid_pairs keys ("<L-Ctrl>".data ++ [x]) =
        some (match keys ("<L-Ctrl>".data ++ [x]) with
              | some k => [(0x01, k)]
              | none => [])) := by
  refine ⟨by decide, ?_, ?_⟩
  · intro keys
    have e : "<Bogus>A".data = "<Bogus>".data ++ ['A'] := rfl
    unfold get_hid_pairs
    rw [if_neg (by decide)]
    rw [e, scanAux_append]
    have hpre :
        scanAux keys ("<Bogus>".data ++ ['A']) initState 0 "<Bogus>".data =
          some { pairs := [], currentModifiers := 0, readingTag := false,
                 tagStart := 0, closing := false } := rfl
    rw [hpre, Option.some_bind, scanAux_singleton,
      step_literal_lookup keys _ _ _ 'A' rfl (by decide) (by decide)
        (by decide)]
    cases hk : keys ("<Bogus>".data ++ ['A']) with
    | some k => simp
    | none => simp
  · intro keys x hx1 hx2 hx3
    have hpre :
        scanAux keys ("<L-Ctrl>".data ++ [x]) initState 0 "<L-Ctrl>".data =
          some { pairs := [], currentModifiers := 0x01, readingTag := false,
                 tagStart := 0, closing := false } := rfl
    refine ⟨hpre, ?_⟩
    unfold get_hid_pairs
    rw [if_neg (by
      rw [utf8Len_append]
      have := x.utf8Size_pos
      have h8 : utf8Len "<L-Ctrl>".data = 8 := by decide
      have hx : utf8Len [x] = x.utf8Size := by simp [utf8Len]
      omega)]
    rw [scanAux_append, hpre, Option.some_bind, scanAux_singleton,
      step_literal_lookup keys _ _ _ x rfl hx1 hx2 hx3]
    cases hk : keys ("<L-Ctrl>".data ++ [x]) with
    | some k => simp
    | none => simp

theorem c5_tag_resolution_witness :
    get_hid_pairs (fun s => if s = "<L-Ctrl>X".data then some 27 else none)
      "<L-Ctrl>X".data = some [(0x01, 27)] := by
  have h := (c5_tag_resolution.2.2
    (fun s => if s = "<L-Ctrl>X".data then some 27 else none) 'X'
    (by decide) (by decide) (by decide)).2
  simpa using h

/-- Once the scan is past the final recorded `tag_start` and still inside a
tag, nothing changes any more: no pair is emitted, the state stays InTag and
`tag_start` keeps its value. -/
theorem scanAux_frozen (keys : List Char → Option Nat) (output : List Char) :
    ∀ (cs : List Char) (s st : ScanState) (i : Nat),
      scanAux keys output s i cs = some st → st.readingTag = true →
      st.tagStart < i →
      s.pairs = st.pairs ∧ s.readingTag = true ∧ s.tagStart = st.tagStart := by
  intro cs
  induction cs with
  | nil =>
    intro s st i hscan hrt _
    cases hscan
    exact ⟨rfl, hrt, rfl⟩
  | cons c cs ih =>
    intro s st i hscan hrt hlt
    unfold scanAux at hscan
    cases hstep : step keys output s i c with
    | none => rw [hstep] at hscan; cases hscan
    | some s' =>
      rw [hstep] at hscan
      obtain ⟨hp, hr, ht⟩ := ih s' st (i + 1) hscan hrt (by omega)
      unfold step at hstep
      by_cases h1 : c = '<'
      · rw [if_pos h1] at hstep
        cases hb : s.readingTag with
        | false =>
          rw [hb] at hstep
          simp only [Bool.false_eq_true, if_false, Option.some.injEq] at hstep
          subst hstep
          simp only at ht
          exfalso
          omega
        | true =>
          rw [hb] at hstep
          simp only [if_true, Option.some.injEq] at hstep
          subst hstep
          simp only at ht
          exfalso
          omega
      · rw [if_neg h1] at hstep
        by_cases h2 : c = '>'
        · rw [if_pos h2] at hstep
          cases hb : s.readingTag with
          | false =>
            rw [hb] at hstep
            simp only [Bool.false_eq_true, if_false,
              Option.some.injEq] at hstep
            subst hstep
            simp only at hr
            exact absurd hr (by decide)
          | true =>
            rw [hb] at hstep
            simp only [if_true] at hstep
            cases hsl : byteSlice output (s.tagStart + 1) i with
            | none => rw [hsl] at hstep; cases hstep
            | some tc =>
              rw [hsl] at hstep
              simp only [Option.some.injEq] at hstep
              subst hstep
              simp only at hr
              exact absurd hr (by decide)
        · rw [if_neg h2] at hstep
          by_cases h3 : c = '/'
          · rw [if_pos h3] at hstep
            cases hb : s.readingTag with
            | false =>
              rw [hb] at hstep
              simp only [Bool.false_eq_true, if_false,
                Option.some.injEq] at hstep
              subst hstep
              simp only at hr
              exact absurd hr (by decide)
            | true =>
              rw [hb] at hstep
              simp only [if_true, Option.some.injEq] at hstep
              subst hstep
              exact ⟨hp, rfl, ht⟩
          · rw [if_neg h3] at hstep
            cases hb : s.readingTag with
            | false =>
              rw [hb] at hstep
              simp only [Bool.false_eq_true, if_false] at hstep
              cases hk : keys output with
              | some k =>
                rw [hk] at hstep
                simp only [Option.some.injEq] at hstep
                subst hstep
                simp only at hr
                exact absurd hr (by decide)
              | none =>
                rw [hk] at hstep
                simp only [Option.some.injEq] at hstep
                subst hstep
                exact absurd hr (by simp [hb])
            | true =>
              rw [hb] at hstep
              simp only [if_true, Option.some.injEq] at hstep
              subst hstep
              exact ⟨hp, rfl, ht⟩

/-- C7 (amended): when the scan ends still inside a tag, the result is
exactly the pairs accumulated once the character at the final `tag_start`
(the unterminated `<` itself) has been processed; the portion after that
`<` emits nothing and raises no error.  (As literally stated — "the pairs
emitted before the unterminated `<` was reached" — the claim fails when the
unterminated `<` occurs inside another tag, because that `<` itself emits a
separator pair: see `c7_nested_unterminated`.) -/
theorem c7_unterminated_tag (keys : List Char → Option Nat)
    (output : List Char) (st : ScanState)
    (hscan : scanAux keys output initState 0 output = some st)
    (hrt : st.readingTag = true) :
    ∃ st', scanAux keys output initState 0 (output.take (st.tagStart + 1)) =
      some st' ∧ st'.pairs = st.pairs := by
  by_cases hle : output.length ≤ st.tagStart + 1
  · rw [List.take_of_length_le hle]
    exact ⟨st, hscan, rfl⟩
  · have happ := scanAux_append keys output (output.take (st.tagStart + 1))
      (output.drop (st.tagStart + 1)) initState 0
    rw [List.take_append_drop] at happ
    rw [happ, Option.bind_eq_some] at hscan
    obtain ⟨s₁, hpre, hrest⟩ := hscan
    have hlen : (output.take (st.tagStart + 1)).length = st.tagStart + 1 := by
      rw [List.length_take]
      omega
    obtain ⟨hp, -, -⟩ := scanAux_frozen keys output
      (output.drop (st.tagStart + 1)) s₁ st
      (0 + (output.take (st.tagStart + 1)).length) hrest hrt
      (by rw [hlen]; omega)
    exact ⟨s₁, hpre, hp⟩

theorem c7_unterminated_tag_witness :
    ∃ st', scanAux (fun _ => none) "<L-Ctrl".data initState 0
        ("<L-Ctrl".data.take (0 + 1)) = some st' ∧
      st'.pairs = [] := by
  have h := c7_unterminated_tag (fun _ => none) "<L-Ctrl".data
    { pairs := [], currentModifiers := 0, readingTag := true,
      tagStart := 0, closing := false } (by decide) rfl
  simpa using h

/-- C7 is false as literally stated: on `"<a<b"` the scan ends inside a tag
whose `tag_start` is 2, the pairs emitted strictly before that `<` was
reached are `[]`, yet the final result is `[(0, 0x64)]` — the unterminated
`<` itself, read inside another tag, emits a separator pair. -/
theorem c7_nested_unterminated :
    scanAux (fun _ => none) "<a<b".data initState 0 "<a<b".data =
      some { pairs := [(0, 0x64)], currentModifiers := 0, readingTag := true,
             tagStart := 2, closing := false } ∧
    scanAux (fun _ => none) "<a<b".data initState 0 ("<a<b".data.take 2) =
      some { pairs := [], currentModifiers := 0, readingTag := true,
             tagStart := 0, closing := false } ∧
    get_hid_pairs (fun _ => none) "<a<b".data = some [(0, 0x64)] := by
  refine ⟨by decide, by decide, by decide⟩

theorem parseUnquoted_encode :
    ∀ (f rest : List Char), (∀ c ∈ f, ¬(c = ',' ∨ c = '\n')) →
      (rest = [] ∨ ∃ r rs, rest = r :: rs ∧ (r = ',' ∨ r = '\n')) →
      parseUnquoted (f ++ rest) = (f, rest) := by
  intro f
  induction f with
  | nil =>
    intro rest _ hr
    rcases hr with rfl | ⟨r, rs, rfl, hrc⟩
    · rfl
    · rw [List.nil_append]
      unfold parseUnquoted
      rw [if_pos hrc]
  | cons c f ih =>
    intro rest hf hr
    have hc : ¬(c = ',' ∨ c = '\n') := hf c (by simp)
    rw [List.cons_append]
    have hstep : parseUnquoted (c :: (f ++ rest)) =
        if c = ',' ∨ c = '\n' then ([], c :: (f ++ rest))
        else (c :: (parseUnquoted (f ++ rest)).1,
          (parseUnquoted (f ++ rest)).2) := rfl
    rw [hstep, if_neg hc, ih rest (fun d hd => hf d (by simp [hd])) hr]

theorem parseQuoted_escape :
    ∀ (f acc rest : List Char), (∀ r rs, rest = r :: rs → r ≠ '"') →
      parseQuoted acc (csvEscape f ++ ('"' :: rest)) =
        some (acc ++ f, rest) := by
  intro f
  induction f with
  | nil =>
    intro acc rest hr
    show parseQuoted acc ('"' :: rest) = some (acc ++ [], rest)
    rw [List.append_nil]
    cases rest with
    | nil => rfl
    | cons r rs =>
      rw [parseQuoted, if_pos rfl, if_neg (hr r rs rfl)]
  | cons c f ih =>
    intro acc rest hr
    by_cases hc : c = '"'
    · subst hc
      have he : csvEscape ('"' :: f) ++ ('"' :: rest) =
          '"' :: '"' :: (csvEscape f ++ ('"' :: rest)) := by
        simp [csvEscape]
      rw [he, parseQuoted, if_pos rfl, if_pos rfl,
        ih (acc ++ ['"']) rest hr]
      simp
    · have he : csvEscape (c :: f) ++ ('"' :: rest) =
          c :: (csvEscape f ++ ('"' :: rest)) := by
        simp [csvEscape, hc]
      rw [he]
      have hne : csvEscape f ++ ('"' :: rest) ≠ [] := by simp
      obtain ⟨d, ds, hds⟩ := List.exists_cons_of_ne_nil hne
      rw [hds, parseQuoted, if_neg hc, ← hds, ih (acc ++ [c]) rest hr]
      simp

theorem csvNeedsQuote_false {f : List Char} (hq : ¬csvNeedsQuote f = true) :
    ∀ c ∈ f, c ≠ ',' ∧ c ≠ '"' ∧ c ≠ '\n' ∧ c ≠ '\r' := by
  intro c hc
  simp only [csvNeedsQuote, List.any_eq_true, not_exists, not_and,
    Bool.or_eq_true, decide_eq_true_eq, not_or] at hq
  obtain ⟨⟨⟨h1, h2⟩, h3⟩, h4⟩ := hq c hc
  exact ⟨h1, h2, h3, h4⟩

theorem parseField_encode (f rest : List Char)
    (hr : rest = [] ∨ ∃ r rs, rest = r :: rs ∧ (r = ',' ∨ r = '\n')) :
    parseField (csvField f ++ rest) = some (f, rest) := by
  unfold csvField
  by_cases hq : csvNeedsQuote f
  · rw [if_pos hq]
    have e : ('"' :: (csvEscape f ++ ['"'])) ++ rest =
        '"' :: (csvEscape f ++ ('"' :: rest)) := by simp
    rw [e]
    have hpf : parseField ('"' :: (csvEscape f ++ ('"' :: rest))) =
        parseQuoted [] (csvEscape f ++ ('"' :: rest)) := by
      simp [parseField]
    rw [hpf, parseQuoted_escape f [] rest ?hne]
    · simp
    case hne =>
      intro r rs hrr
      rcases hr with rfl | ⟨r', rs', heq, hrc⟩
      · cases hrr
      · rw [heq] at hrr
        cases hrr
        rcases hrc with rfl | rfl <;> decide
  · rw [if_neg hq]
    have hf : ∀ c ∈ f, ¬(c = ',' ∨ c = '\n') := by
      intro c hc
      obtain ⟨h1, -, h3, -⟩ := csvNeedsQuote_false hq c hc
      simp [h1, h3]
    cases f with
    | nil =>
      rw [List.nil_append]
      rcases hr with rfl | ⟨r, rs, rfl, hrc⟩
      · rfl
      · have hrq : r ≠ '"' := by rcases hrc with rfl | rfl <;> decide
        have h1 : parseField (r :: rs) = some (parseUnquoted (r :: rs)) := by
          simp [parseField, hrq]
        have h2 := parseUnquoted_encode [] (r :: rs) (by simp)
          (Or.inr ⟨r, rs, rfl, hrc⟩)
        rw [List.nil_append] at h2
        rw [h1, h2]
    | cons c f' =>
      have hcq : c ≠ '"' := (csvNeedsQuote_false hq c (by simp)).2.1
      rw [List.cons_append]
      have h1 : parseField (c :: (f' ++ rest)) =
          some (parseUnquoted (c :: (f' ++ rest))) := by
        simp [parseField, hcq]
      have h2 := parseUnquoted_encode (c :: f') rest hf hr
      rw [List.cons_append] at h2
      rw [h1, h2]

theorem parseRow_encode (r : Chord) (rest : List Char) :
    parseRow (csvRecordLine r ++ rest) =
      some ((optField r.thumbs, optField r.fingers, r.output), rest) := by
  unfold csvRecordLine parseRow
  have e : (csvField (optField r.thumbs) ++
      ',' :: (csvField (optField r.fingers) ++
        ',' :: (csvField r.output ++ ['\n']))) ++ rest =
      csvField (optField r.thumbs) ++
        (',' :: (csvField (optField r.fingers) ++
          (',' :: (csvField r.output ++ ('\n' :: rest))))) := by simp
  rw [e, parseField_encode (optField r.thumbs) _
    (Or.inr ⟨',', _, rfl, Or.inl rfl⟩)]
  simp only
  rw [parseField_encode (optField r.fingers) _
    (Or.inr ⟨',', _, rfl, Or.inl rfl⟩)]
  simp only
  rw [parseField_encode r.output _
    (Or.inr ⟨'\n', rest, rfl, Or.inr rfl⟩)]
  rfl

theorem csvRecordLine_ne_nil (r : Chord) : csvRecordLine r ≠ [] := by
  simp [csvRecordLine]

theorem decodeRows_encode :
    ∀ (rs : List Chord) (fuel : Nat), rs.length < fuel →
      decodeRows fuel ((rs.map csvRecordLine).flatten) =
        some (rs.map csvNormalize) := by
  intro rs
  induction rs with
  | nil =>
    intro fuel _
    cases fuel <;> rfl
  | cons r rs ih =>
    intro fuel hf
    cases fuel with
    | zero => omega
    | succ fuel =>
      simp only [List.map_cons, List.flatten_cons]
      have hne : csvRecordLine r ++ ((rs.map csvRecordLine).flatten) ≠ [] := by
        intro hcontra
        exact csvRecordLine_ne_nil r (List.append_eq_nil.mp hcontra).1
      obtain ⟨c, cs, hcs⟩ := List.exists_cons_of_ne_nil hne
      rw [hcs]
      simp only [decodeRows]
      rw [← hcs, parseRow_encode r]
      simp only
      rw [ih fuel (by simp at hf; omega)]
      rfl

theorem flatten_rows_length_ge (rs : List Chord) :
    rs.length ≤ ((rs.map csvRecordLine).flatten).length := by
  induction rs with
  | nil => simp
  | cons r rs ih =>
    simp only [List.map_cons, List.flatten_cons, List.length_append,
      List.length_cons]
    have h1 : 1 ≤ (csvRecordLine r).length := by
      cases h : csvRecordLine r with
      | nil => exact absurd h (csvRecordLine_ne_nil r)
      | cons c cs => simp
    omega

/-- The codec's round trip, exactly: decoding an encoded table yields the
field-normalized records (an optional field written empty comes back
absent). -/
theorem csv_round_trip (rs : List Chord) :
    csvParse (csvExport rs) = some (rs.map csvNormalize) := by
  cases rs with
  | nil => rfl
  | cons r rs =>
    have hhdr : csvHeader =
        csvRecordLine ⟨some "thumbs".data, some "fingers".data,
          "output".data⟩ := by decide
    have hne : csvHeader ++ ((r :: rs).map csvRecordLine).flatten ≠ [] := by
      intro hcontra
      have : csvHeader = [] := (List.append_eq_nil.mp hcontra).1
      exact absurd this (by decide)
    obtain ⟨c, cs, hcs⟩ := List.exists_cons_of_ne_nil hne
    show csvParse (csvHeader ++ ((r :: rs).map csvRecordLine).flatten) = _
    rw [hcs]
    simp only [csvParse]
    rw [← hcs, hhdr, parseRow_encode]
    simp only
    rw [decodeRows_encode (r :: rs) _
      (Nat.lt_succ_of_le (flatten_rows_length_ge (r :: rs)))]

theorem csvNormalize_eq_self {r : Chord} (h1 : r.thumbs ≠ some [])
    (h2 : r.fingers ≠ some []) : csvNormalize r = r := by
  obtain ⟨t, g, o⟩ := r
  simp only at h1 h2
  cases t with
  | none =>
    cases g with
    | none => rfl
    | some gs =>
      have hg : gs ≠ [] := fun hcontra => h2 (by rw [hcontra])
      simp [csvNormalize, mkChord, optField, hg]
  | some ts =>
    have ht : ts ≠ [] := fun hcontra => h1 (by rw [hcontra])
    cases g with
    | none => simp [csvNormalize, mkChord, optField, ht]
    | some gs =>
      have hg : gs ≠ [] := fun hcontra => h2 (by rw [hcontra])
      simp [csvNormalize, mkChord, optField, ht, hg]

/-- C8 (amended): serializing a record list with the tabular encoder and
decoding the text back yields the original list, provided no optional field
is the **present-but-empty** string: the codec writes `Some ""` and `None`
identically (an empty field), and an empty optional field decodes as
absent, so `Some ""` does not survive the round trip (see
`c8_some_empty_collapses`); all other records round-trip field-for-field. -/
theorem c8_round_trip (rs : List Chord)
    (h : ∀ r ∈ rs, r.thumbs ≠ some [] ∧ r.fingers ≠ some []) :
    csvParse (csvExport rs) = some rs := by
  rw [csv_round_trip]
  have : rs.map csvNormalize = rs := by
    induction rs with
    | nil => rfl
    | cons r rs ih =>
      simp only [List.map_cons]
      rw [csvNormalize_eq_self (h r (by simp)).1 (h r (by simp)).2,
        ih (fun x hx => h x (by simp [hx]))]
  rw [this]

theorem c8_round_trip_witness :
    csvParse (csvExport
      [⟨some "T1".data, some "F1".data, "<L-Ctrl>F".data⟩,
       ⟨none, some "F2".data, "<R-Shift>A".data⟩]) =
      some [⟨some "T1".data, some "F1".data, "<L-Ctrl>F".data⟩,
            ⟨none, some "F2".data, "<R-Shift>A".data⟩] :=
  c8_round_trip _ (by decide)

/-- C8 is false as stated: a record whose thumbs field is the present-but-
empty string `Some ""` is written as an empty field and decodes as `None`,
so the round trip does not reproduce it field-for-field. -/
theorem c8_some_empty_collapses :
    csvParse (csvExport [⟨some [], none, ['x']⟩]) =
      some [⟨none, none, ['x']⟩] ∧
    (⟨none, none, ['x']⟩ : Chord) ≠ ⟨some [], none, ['x']⟩ := by
  exact ⟨by decide, by decide⟩
